import Mathlib

/-
Verification of the transform-fusion core of ros_atlas against its design
specification.

The embedding models:
  * src/transformgraph.cpp : the frame graph (boost labeled_graph over an
    adjacency_list with vector vertex storage, so a vertex descriptor is the
    insertion index of its label), its mutating operations and the
    path/transform queries;
  * src/filters.cpp : the WeightedMean accumulator and the
    ExplonentialMovingAverageFilter (name kept as in the source).

Transforms (tf2::Transform) are rigid transforms; the program only composes
and inverts them, so they are modelled as an abstract group `G`.
External library calls are modelled as explicit parameters:
  * Eigen's SelfAdjointEigenSolver (filters.cpp line 69) as an oracle
    returning eigenvalues and an eigenvector matrix;
  * tf2's slerp (filters.cpp line 141) as an oracle on quaternions;
  * ros::Time::now() (filters.cpp lines 117/133/149/195) as an explicit
    `now` argument, making each filter call a pure state transition.
Scalars that are C++ doubles are modelled as exact rationals.
-/

namespace Atlas

abbrev FrameName := String

abbrev MeasurementKey := String

/-- Position of the first occurrence of `x` in a list, as the vector-storage
vertex descriptor of a boost labeled graph (insertion index of the label). -/
def idxOf? {α : Type} [DecidableEq α] (x : α) : List α → Option Nat
  | [] => none
  | v :: rest => if v = x then some 0 else (idxOf? x rest).map (· + 1)

/-- Measurement event (from frame, to frame, key, transform, weight); the key
and transform are consumed by `updateSensorData`. Modelled from the spec: the
`SensorData` declaration lives in transformgraph.h, which is not in src; §6 of
the spec lists a weight among the streaming measurement fields, and the .cpp
never reads it (it inserts the literal edge weight 1.0). -/
structure SensorData (G : Type) where
  key : MeasurementKey
  transform : G
  weight : ℚ
  deriving DecidableEq

/-- Payload stored on a graph edge: the measurement key and its transform.
Modelled from the spec and from its uses in transformgraph.cpp (lines 23-25):
`EdgeInfo(sensorData)` copies the key and transform, `info.inverse()` inverts
the transform and keeps the key. -/
structure EdgeInfo (G : Type) where
  key : MeasurementKey
  transform : G
  deriving DecidableEq

def EdgeInfo.ofSensorData {G : Type} (d : SensorData G) : EdgeInfo G :=
  ⟨d.key, d.transform⟩

def EdgeInfo.inverse {G : Type} [Group G] (e : EdgeInfo G) : EdgeInfo G :=
  ⟨e.key, e.transform⁻¹⟩

/-- One directed edge of the boost adjacency list: endpoint vertex
descriptors, the edge weight property, and the `EdgeInfo` bundle. -/
structure GraphEdge (G : Type) where
  src : Nat
  dst : Nat
  weight : ℚ
  info : EdgeInfo G
  deriving DecidableEq

/-- The labeled multigraph of transformgraph.cpp: vertex labels in insertion
order (a vertex descriptor is an index into this list) and the directed edge
list. -/
structure TransformGraph (G : Type) where
  vertices : List FrameName
  edges : List (GraphEdge G)
  deriving DecidableEq

def TransformGraph.empty {G : Type} : TransformGraph G := ⟨[], []⟩

/-- Lines 9-14: `addEntity` adds a labeled vertex; boost's
`add_vertex(label, g)` on a labeled graph is idempotent for an existing
label. -/
def TransformGraph.addEntity {G : Type} (g : TransformGraph G) (name : FrameName) :
    TransformGraph G :=
  if name ∈ g.vertices then g else ⟨g.vertices ++ [name], g.edges⟩

/-- Lines 33-43: `removeEdgeByKey` calls `remove_edge_if` with a
`RemovePredicate` in a loop until the predicate reports that nothing was
removed. `RemovePredicate` is declared in transformgraph.h, which is not in
src. Modelled from the spec: "removes every edge (regardless of endpoints)
carrying `key`; must repeat until no matching edge remains" — the loop's
fixed point keeps exactly the edges whose key differs. -/
def TransformGraph.removeEdgeByKey {G : Type} (g : TransformGraph G)
    (key : MeasurementKey) : TransformGraph G :=
  ⟨g.vertices, g.edges.filter (fun e => e.info.key ≠ key)⟩

/-- Lines 16-26: `updateSensorData` first removes every edge carrying the
measurement key, then inserts the forward edge and its inverse, both with the
literal weight 1.0. `add_edge_by_label` resolves a label through the graph's
label map; an unregistered label resolves to the null vertex, and the
subsequent `add_edge` on the null vertex accesses the vertex storage out of
bounds — that execution is undefined in the source (no post-state, no error
report) and is modelled as `none`. A defined execution (both labels
registered) returns the updated graph. -/
def TransformGraph.updateSensorData {G : Type} [Group G] (g : TransformGraph G)
    (f t : FrameName) (d : SensorData G) : Option (TransformGraph G) :=
  let g1 := g.removeEdgeByKey d.key
  match idxOf? f g1.vertices, idxOf? t g1.vertices with
  | some u, some v =>
      some ⟨g1.vertices,
        g1.edges ++ [⟨u, v, 1, EdgeInfo.ofSensorData d⟩,
                     ⟨v, u, 1, (EdgeInfo.ofSensorData d).inverse⟩]⟩
  | _, _ => none

/-- Lines 28-31: `removeAllEdges` delegates to `remove_edge_by_label`, which
removes every directed edge from `f` to `t` (that direction only). An
unknown label resolves to the null vertex and the removal dereferences it —
undefined in the source, modelled as `none`. -/
def TransformGraph.removeAllEdges {G : Type} (g : TransformGraph G)
    (f t : FrameName) : Option (TransformGraph G) :=
  match idxOf? f g.vertices, idxOf? t g.vertices with
  | some u, some v =>
      some ⟨g.vertices, g.edges.filter (fun e => ¬(e.src = u ∧ e.dst = v))⟩
  | _, _ => none

/-- Lines 131-134: `numberOfEdges` is `boost::num_edges`. -/
def TransformGraph.numberOfEdges {G : Type} (g : TransformGraph G) : Nat :=
  g.edges.length

/-- Existence of a directed edge between two vertex descriptors
(`boost::edge(u, v, g).second`, line 84). -/
def hasEdge {G : Type} (g : TransformGraph G) (u v : Nat) : Bool :=
  g.edges.any (fun e => e.src == u && e.dst == v)

/-- State of the shortest-path search: vertices in discovery order and the
recorded predecessor pairs (vertex, predecessor). -/
structure SearchState where
  visited : List Nat
  pred : List (Nat × Nat)
  deriving DecidableEq

/-- One relaxation: an edge from a discovered vertex to an undiscovered one
records the discovery and its predecessor. -/
def relaxEdge {G : Type} (s : SearchState) (e : GraphEdge G) : SearchState :=
  if e.src ∈ s.visited ∧ e.dst ∉ s.visited then
    ⟨s.visited ++ [e.dst], s.pred ++ [(e.dst, e.src)]⟩
  else s

def relaxRound {G : Type} (g : TransformGraph G) (s : SearchState) : SearchState :=
  g.edges.foldl relaxEdge s

def iterRounds {G : Type} (g : TransformGraph G) : Nat → SearchState → SearchState
  | 0, s => s
  | n + 1, s => iterRounds g n (relaxRound g s)

/-- Line 66: the `boost::dijkstra_shortest_paths` call, which fills the
predecessor map of the shortest-path tree rooted at `start`. Every edge this
program stores has weight 1.0 (lines 24-25), so the shortest-path tree is a
breadth-first tree; tie-breaking among equal-cost paths is unspecified by the
spec, and the library call is modelled by this relaxation search, which
computes a valid predecessor tree of the same graph. -/
def searchFrom {G : Type} (g : TransformGraph G) (start : Nat) : SearchState :=
  iterRounds g g.vertices.length ⟨[start], []⟩

/-- Predecessor of `v` in the computed map; Dijkstra initializes every
vertex's predecessor to itself, so a vertex with no recorded entry is its own
predecessor. -/
def predOf (s : SearchState) (v : Nat) : Nat :=
  match s.pred.find? (fun p => p.1 == v) with
  | some p => p.2
  | none => v

/-- Lines 76-92: walk from the goal back to the source through the
predecessor map, stopping at the fixed point `p[v] == v`, recording each
step's edge when `boost::edge(u, v)` exists (it is skipped otherwise, line
86-87). Pairs are produced here directly in source-to-goal order (the source
collects them goal-first and then iterates in reverse, lines 95-111). The
source loop is unbounded; it is modelled with fuel, shown sufficient for the
predecessor maps the search produces. -/
def walkBack {G : Type} (g : TransformGraph G) (s : SearchState) :
    Nat → Nat → List (Nat × Nat)
  | 0, _ => []
  | fuel + 1, v =>
    let u := predOf s v
    if u = v then []
    else walkBack g s fuel u ++ (if hasEdge g u v then [(u, v)] else [])

/-- Lines 94-111: the returned name list is the first recorded edge's source
name followed by every recorded edge's target name (the null-vertex guard on
line 100 cannot trigger for edges of the graph). -/
def pathNames {G : Type} (g : TransformGraph G) : List (Nat × Nat) → List FrameName
  | [] => []
  | (u, v) :: rest =>
    g.vertices.getD u "" :: g.vertices.getD v "" ::
      rest.map (fun p => g.vertices.getD p.2 "")

/-- Lines 59-116: `lookupPath`. The predecessor and distance buffers are
sized by `num_edges` (lines 61-62) while Dijkstra writes an entry for every
vertex, so a graph with fewer edges than vertices overruns them; and an
unknown `from`/`to` label resolves to the null vertex, which Dijkstra then
dereferences out of bounds. Both executions are undefined in the source and
modelled as `none`. A defined execution returns the reconstructed name
list. -/
def TransformGraph.lookupPath {G : Type} (g : TransformGraph G)
    (f t : FrameName) : Option (List FrameName) :=
  if g.edges.length < g.vertices.length then none
  else
    match idxOf? f g.vertices, idxOf? t g.vertices with
    | some start, some goal =>
        some (pathNames g (walkBack g (searchFrom g start) g.vertices.length goal))
    | _, _ => none

/-- Lines 118-124: `lookupTransform` computes the path; when it is empty the
source returns a default-constructed `tf2::Transform` (whose members tf2
leaves uninitialized — an indeterminate value carrying no failure tag,
modelled as the identity); when the path is non-empty, control reaches the
end of the non-void function without returning: no transform value is
produced, modelled as `none`. The composition of the edge transforms along
the path never happens. -/
def TransformGraph.lookupTransform {G : Type} [Group G] (g : TransformGraph G)
    (f t : FrameName) : Option G :=
  match g.lookupPath f t with
  | none => none
  | some path => if path.isEmpty then some 1 else none

/-- Lines 126-129: `canTransform` is emptiness of `lookupPath` (undefined
executions of the search stay undefined). -/
def TransformGraph.canTransform {G : Type} (g : TransformGraph G)
    (f t : FrameName) : Option Bool :=
  match g.lookupPath f t with
  | none => none
  | some p => some (!p.isEmpty)

/-- Directed reachability between vertex descriptors along stored edges. -/
inductive Reach {G : Type} (g : TransformGraph G) (start : Nat) : Nat → Prop
  | refl : Reach g start start
  | step {u v : Nat} : Reach g start u → hasEdge g u v = true → Reach g start v

/-- A connecting path exists between two frame names: both resolve to
vertices and the second is reachable from the first. -/
def Connected {G : Type} (g : TransformGraph G) (a b : FrameName) : Prop :=
  ∃ i j, idxOf? a g.vertices = some i ∧ idxOf? b g.vertices = some j ∧ Reach g i j

/-- Every stored edge references valid vertex descriptors. -/
def EdgesValid {G : Type} (g : TransformGraph G) : Prop :=
  ∀ e ∈ g.edges, e.src < g.vertices.length ∧ e.dst < g.vertices.length

/-- A directed measurement edge between two frame names, carrying a given
key and transform, is stored in the graph. -/
def TransformGraph.hasMeasurement {G : Type} [DecidableEq G] (g : TransformGraph G)
    (f t : FrameName) (key : MeasurementKey) (τ : G) : Bool :=
  match idxOf? f g.vertices, idxOf? t g.vertices with
  | some u, some v =>
      g.edges.any (fun e => decide (e.src = u ∧ e.dst = v ∧ e.info = ⟨key, τ⟩))
  | _, _ => false

/-- An edge whose endpoints carry the given frame names (the name of a vertex
descriptor is its label). -/
def edgeBetween {G : Type} (g : TransformGraph G) (a b : FrameName) : Prop :=
  ∃ e ∈ g.edges, g.vertices.getD e.src "" = a ∧ g.vertices.getD e.dst "" = b

/-- Cost of a list of edges as summed by the shortest-path search: the sum of
their stored weights. -/
def pathCost {G : Type} (es : List (GraphEdge G)) : ℚ :=
  (es.map (fun e => e.weight)).sum

/-- Graph states reachable from the initial (empty) graph through the
defined executions of the operations of transformgraph.cpp (the partial
operations step only when they return a defined result). -/
inductive ReachableState {G : Type} [Group G] : TransformGraph G → Prop
  | empty : ReachableState TransformGraph.empty
  | addEntity {g : TransformGraph G} (name : FrameName) :
      ReachableState g → ReachableState (g.addEntity name)
  | update {g g' : TransformGraph G} (f t : FrameName) (d : SensorData G) :
      ReachableState g → g.updateSensorData f t d = some g' → ReachableState g'
  | removeAll {g g' : TransformGraph G} (f t : FrameName) :
      ReachableState g → g.removeAllEdges f t = some g' → ReachableState g'
  | removeKey {g : TransformGraph G} (k : MeasurementKey) :
      ReachableState g → ReachableState (g.removeEdgeByKey k)

/-- Consecutive pairs of a vertex chain: `toPairs [a, b, c] = [(a,b), (b,c)]`. -/
def toPairs : List Nat → List (Nat × Nat)
  | a :: b :: rest => (a, b) :: toPairs (b :: rest)
  | _ => []

/-- Invariant of the predecessor search rooted at `start`: the root is
discovered and has no predecessor entry; every other discovered vertex has a
predecessor entry whose pair is a stored edge and which was discovered
strictly earlier; entries are keyed uniquely; discovered vertices are
distinct, reachable from the root, and valid descriptors. -/
structure SearchInv {G : Type} (g : TransformGraph G) (start : Nat)
    (s : SearchState) : Prop where
  startMem : start ∈ s.visited
  startNoPred : ∀ p ∈ s.pred, p.1 ≠ start
  visitedKeyed : ∀ v ∈ s.visited, v ≠ start → ∃ u, (v, u) ∈ s.pred
  predEdges : ∀ p ∈ s.pred, hasEdge g p.2 p.1 = true
  predRank : ∀ p ∈ s.pred, ∃ i j, idxOf? p.2 s.visited = some i ∧
    idxOf? p.1 s.visited = some j ∧ i < j
  keysUnique : ∀ p ∈ s.pred, ∀ q ∈ s.pred, p.1 = q.1 → p.2 = q.2
  nodup : s.visited.Nodup
  visitedReach : ∀ v ∈ s.visited, Reach g start v
  visitedLt : ∀ v ∈ s.visited, v < g.vertices.length

/-! Filters (src/filters.cpp). -/

abbrev Vec3 := ℚ × ℚ × ℚ

/-- tf2::Quaternion components, stored x, y, z, w as in the source. -/
structure Quat where
  x : ℚ
  y : ℚ
  z : ℚ
  w : ℚ
  deriving DecidableEq

def Quat.identity : Quat := ⟨0, 0, 0, 1⟩

/-- Accumulator state of `WeightedMean`: running weighted vector sum, total
vector weight, and the columns of the growing 4×N quaternion matrix
`m_quats`, each column being a weight-scaled (x, y, z, w) sample. -/
structure WeightedMean where
  vectorWeightedSum : Vec3
  vectorWeights : ℚ
  quats : List (Fin 4 → ℚ)

/-- Lines 47-52: `reset` clears all accumulators; this is also the state a
freshly constructed `WeightedMean` holds (the member initializers live in
filters.h, which is not in src; modelled from the spec's zero/empty
accumulator state, which `reset` in the .cpp confirms). -/
def WeightedMean.reset : WeightedMean := ⟨(0, 0, 0), 0, []⟩

/-- Lines 29-33: accumulate `weight · v` into the running sum and `weight`
into the running total. -/
def WeightedMean.addVec3 (m : WeightedMean) (v : Vec3) (weight : ℚ) : WeightedMean :=
  { m with
    vectorWeightedSum :=
      (m.vectorWeightedSum.1 + v.1 * weight,
       m.vectorWeightedSum.2.1 + v.2.1 * weight,
       m.vectorWeightedSum.2.2 + v.2.2 * weight)
    vectorWeights := m.vectorWeights + weight }

/-- Lines 35-45: append `weight · (x, y, z, w)` as a new column of
`m_quats`. -/
def WeightedMean.addQuat (m : WeightedMean) (q : Quat) (weight : ℚ) : WeightedMean :=
  { m with quats := m.quats ++ [fun i => weight * ![q.x, q.y, q.z, q.w] i] }

/-- Lines 54-61: `weightedMeanVec3` returns the zero vector when the total
weight is zero, otherwise the weighted sum divided by the total weight. -/
def WeightedMean.weightedMeanVec3 (m : WeightedMean) : Vec3 :=
  if m.vectorWeights = 0 then (0, 0, 0)
  else
    (m.vectorWeightedSum.1 / m.vectorWeights,
     m.vectorWeightedSum.2.1 / m.vectorWeights,
     m.vectorWeightedSum.2.2 / m.vectorWeights)

/-- The matrix `m_quats * m_quats.transpose()` of line 69: the sum over the
stored columns `c` of the outer products `c · cᵀ`. -/
def WeightedMean.quatMatrix (m : WeightedMean) : Matrix (Fin 4) (Fin 4) ℚ :=
  m.quats.foldr (fun c A => Matrix.of fun i j => c i * c j + A i j) 0

/-- Output of Eigen's `SelfAdjointEigenSolver`: the eigenvalues and the
matrix whose columns are the corresponding eigenvectors. -/
structure EigenResult where
  eigenvalues : Fin 4 → ℚ
  eigenvectors : Matrix (Fin 4) (Fin 4) ℚ

/-- The Eigen eigendecomposition (filters.cpp line 69) is an external library
call, modelled as an oracle from the symmetric matrix to its result. -/
abbrev EigenSolver := Matrix (Fin 4) (Fin 4) ℚ → EigenResult

/-- Lines 71-82: scan the eigenvalues with `maxVal = -1.0`, keeping the index
of the first eigenvalue of maximal absolute value. -/
def selectMaxAbsIndex (vals : Fin 4 → ℚ) : Fin 4 :=
  ((List.finRange 4).foldl
    (fun acc i => if |vals i| > acc.2 then (i, |vals i|) else acc)
    ((0 : Fin 4), (-1 : ℚ))).1

/-- The quaternion built from column `idx` of an eigenvector matrix
(line 87: components 0-3 of the selected eigenvector). -/
def quatOfColumn (vecs : Matrix (Fin 4) (Fin 4) ℚ) (idx : Fin 4) : Quat :=
  ⟨vecs 0 idx, vecs 1 idx, vecs 2 idx, vecs 3 idx⟩

/-- Lines 63-88: `weightedMeanQuat` solves the eigenproblem of
`m_quats * m_quatsᵀ` and returns the eigenvector of the eigenvalue of
largest absolute value as a quaternion. There is no zero-sample check and
the return type carries no failure alternative: every call returns a
quaternion. -/
def WeightedMean.weightedMeanQuat (solver : EigenSolver) (m : WeightedMean) : Quat :=
  let r := solver m.quatMatrix
  quatOfColumn r.eigenvectors (selectMaxAbsIndex r.eigenvalues)

/-- Follows the spec's words (§4.4, §7): "Calling with zero accumulated
samples is a `DegenerateAverage` error", "reported as empty/error result" —
stated as a refinement target to compare with the source's
`weightedMeanQuat`. -/
def weightedMeanQuatSpec (solver : EigenSolver) (m : WeightedMean) : Option Quat :=
  if m.quats.isEmpty then none else some (m.weightedMeanQuat solver)

/-- State of `ExplonentialMovingAverageFilter` (source spelling kept): the
configured smoothing factor and timeout, the three channel accumulators with
their flags, and the time of the last value. The accumulators' and flags'
initial values are the in-class initializers of filters.h, which is not in
src; modelled from the spec: "reading before first initialization returns a
defined default (zero scalar/vector, identity rotation)", flags false,
`m_timeOfLastValue` zero. -/
structure ExplonentialMovingAverageFilter where
  alpha : ℚ
  timeout : ℚ
  scalarAccu : ℚ := 0
  vectorAccu : Vec3 := (0, 0, 0)
  quatAccu : Quat := Quat.identity
  scalarInitd : Bool := false
  vecInitd : Bool := false
  quatInitd : Bool := false
  timeOfLastValue : ℚ := 0
  deriving DecidableEq

namespace ExplonentialMovingAverageFilter

/-- Lines 94-102: construction stores α and the timeout and leaves the
channels in their default state. -/
def init (alpha timeout : ℚ) : ExplonentialMovingAverageFilter :=
  { alpha := alpha, timeout := timeout }

/-- Lines 158-163: `reset` clears the three channel flags — and nothing
else; the accumulators keep their values. -/
def reset (f : ExplonentialMovingAverageFilter) : ExplonentialMovingAverageFilter :=
  { f with scalarInitd := false, quatInitd := false, vecInitd := false }

/-- Lines 190-197: when a timeout is configured and at least that much time
has passed since the last value, `reset` is forced before blending.
`ros::Time::now()` is modelled by the explicit `now` argument. -/
def checkReinit (f : ExplonentialMovingAverageFilter) (now : ℚ) :
    ExplonentialMovingAverageFilter :=
  if f.timeout = 0 then f
  else if f.timeout ≤ now - f.timeOfLastValue then f.reset else f

/-- Lines 104-118: `addScalar` — after the staleness check, an initialized
channel blends `α·x + (1-α)·accu`; an uninitialized channel stores `x`
exactly and becomes initialized; the last-value time is set
unconditionally. -/
def addScalar (f : ExplonentialMovingAverageFilter) (now x : ℚ) :
    ExplonentialMovingAverageFilter :=
  let f1 := f.checkReinit now
  let f2 :=
    if f1.scalarInitd then
      { f1 with scalarAccu := f1.alpha * x + (1 - f1.alpha) * f1.scalarAccu }
    else { f1 with scalarAccu := x, scalarInitd := true }
  { f2 with timeOfLastValue := now }

/-- Lines 120-134: `addVec3`, componentwise EMA with the same state
machine. -/
def addVec3 (f : ExplonentialMovingAverageFilter) (now : ℚ) (v : Vec3) :
    ExplonentialMovingAverageFilter :=
  let f1 := f.checkReinit now
  let f2 :=
    if f1.vecInitd then
      { f1 with vectorAccu :=
          (f1.alpha * v.1 + (1 - f1.alpha) * f1.vectorAccu.1,
           f1.alpha * v.2.1 + (1 - f1.alpha) * f1.vectorAccu.2.1,
           f1.alpha * v.2.2 + (1 - f1.alpha) * f1.vectorAccu.2.2) }
    else { f1 with vectorAccu := v, vecInitd := true }
  { f2 with timeOfLastValue := now }

/-- Lines 136-150: `addQuat`; `tf2`'s slerp is an external library call,
modelled as an oracle argument, unused on the first-sample branch exactly as
in the source. -/
def addQuat (slerp : Quat → Quat → ℚ → Quat) (f : ExplonentialMovingAverageFilter)
    (now : ℚ) (q : Quat) : ExplonentialMovingAverageFilter :=
  let f1 := f.checkReinit now
  let f2 :=
    if f1.quatInitd then { f1 with quatAccu := slerp f1.quatAccu q f1.alpha }
    else { f1 with quatAccu := q, quatInitd := true }
  { f2 with timeOfLastValue := now }

/-- Lines 165-168: the scalar accessor returns the raw accumulator. -/
def scalar (f : ExplonentialMovingAverageFilter) : ℚ := f.scalarAccu

/-- Lines 170-173: the vector accessor returns the raw accumulator. -/
def vec3 (f : ExplonentialMovingAverageFilter) : Vec3 := f.vectorAccu

/-- Lines 175-178: the quaternion accessor returns the raw accumulator. -/
def quat (f : ExplonentialMovingAverageFilter) : Quat := f.quatAccu

end ExplonentialMovingAverageFilter

/-! Concrete instances used to evaluate the model on explicit inputs. The
transform group is instantiated with `Multiplicative ℤ`, an exactly
computable stand-in for the group of rigid transforms. -/

abbrev TConc := Multiplicative ℤ

def tConc : TConc := Multiplicative.ofAdd 5

/-- Frames A and B, no edges yet. -/
def baseAB : TransformGraph TConc :=
  (TransformGraph.empty.addEntity "A").addEntity "B"

/-- Frames A and B with one measurement `s1 : A → B` (and its mirror): the
defined result of `updateSensorData` on registered frames. -/
def graphAB : TransformGraph TConc :=
  (baseAB.updateSensorData "A" "B" ⟨"s1", tConc, 1⟩).getD TransformGraph.empty

/-- The spec's scenario graph: frames A, B, C with measurements
`s1 : A → B` and `s2 : B → C` (and mirrors); both updates are defined. -/
def graphABC : TransformGraph TConc :=
  ((((baseAB.addEntity "C").updateSensorData "A" "B" ⟨"s1", tConc, 1⟩).getD
      TransformGraph.empty).updateSensorData "B" "C"
      ⟨"s2", Multiplicative.ofAdd 3, 1⟩).getD TransformGraph.empty

/-- Two disconnected components: A↔B via s1 and C↔D via s2; both updates
are defined. -/
def graphDisconnected : TransformGraph TConc :=
  ((((baseAB.addEntity "C").addEntity "D").updateSensorData "A" "B"
        ⟨"s1", tConc, 1⟩ |>.getD TransformGraph.empty).updateSensorData
      "C" "D" ⟨"s2", tConc, 1⟩).getD TransformGraph.empty

/-- Behavior of Eigen's `SelfAdjointEigenSolver` on the 4×4 zero matrix (the
Gram matrix of zero accumulated samples): all eigenvalues are zero and the
eigenvector matrix is the identity. Used as the concrete solver oracle at
that input. -/
def zeroCaseEigenSolver : EigenSolver := fun _ => ⟨fun _ => 0, 1⟩

/-- A smoother channel configured with α = 1/2 and no timeout, in its
default-constructed state. -/
def filterHalf : ExplonentialMovingAverageFilter :=
  ExplonentialMovingAverageFilter.init (1 / 2) 0

/-- A smoother channel configured with α = 1/2 and timeout 10, holding an
initialized scalar estimate 3 received at time 0 (the state after
`(init (1/2) 10).addScalar 0 3`). -/
def filterStale : ExplonentialMovingAverageFilter :=
  { alpha := 1 / 2, timeout := 10, scalarAccu := 3, scalarInitd := true,
    timeOfLastValue := 0 }

/-! Helper lemmas about `idxOf?` and `hasEdge`. -/

theorem idxOf?_get? {α : Type} [DecidableEq α] {x : α} :
    ∀ {l : List α} {i : Nat}, idxOf? x l = some i → l.get? i = some x := by
  intro l
  induction l with
  | nil => intro i h; simp [idxOf?] at h
  | cons v rest ih =>
    intro i h
    by_cases hv : v = x
    · simp [idxOf?, hv] at h
      subst h
      simpa using hv
    · simp [idxOf?, hv] at h
      rcases h with ⟨j, hj, hji⟩
      subst hji
      simpa using ih hj

theorem idxOf?_lt_length {α : Type} [DecidableEq α] {x : α} {l : List α}
    {i : Nat} (h : idxOf? x l = some i) : i < l.length := by
  have := idxOf?_get? h
  exact List.get?_eq_some.mp this |>.1

theorem idxOf?_mem {α : Type} [DecidableEq α] {x : α} {l : List α} {i : Nat}
    (h : idxOf? x l = some i) : x ∈ l :=
  List.get?_mem (idxOf?_get? h)

theorem idxOf?_getD {α : Type} [DecidableEq α] {x d : α} {l : List α} {i : Nat}
    (h : idxOf? x l = some i) : l.getD i d = x := by
  have := idxOf?_get? h
  rw [List.get?_eq_getElem?] at this
  simp [List.getD_eq_getElem?_getD, this]

theorem mem_idxOf? {α : Type} [DecidableEq α] {x : α} :
    ∀ {l : List α}, x ∈ l → ∃ i, idxOf? x l = some i := by
  intro l
  induction l with
  | nil => intro h; simp at h
  | cons v rest ih =>
    intro h
    by_cases hv : v = x
    · exact ⟨0, by simp [idxOf?, hv]⟩
    · have hx : x ∈ rest := by
        rcases List.mem_cons.mp h with h1 | h1
        · exact absurd h1.symm hv
        · exact h1
      rcases ih hx with ⟨i, hi⟩
      exact ⟨i + 1, by simp [idxOf?, hv, hi]⟩

theorem idxOf?_ne {α : Type} [DecidableEq α] {x y : α} {l : List α} {i j : Nat}
    (hx : idxOf? x l = some i) (hy : idxOf? y l = some j) (hne : x ≠ y) :
    i ≠ j := by
  intro hij
  subst hij
  have h1 := idxOf?_get? hx
  have h2 := idxOf?_get? hy
  rw [h1] at h2
  exact hne (Option.some_injective _ h2)

theorem idxOf?_append_left {α : Type} [DecidableEq α] {x : α} :
    ∀ {l l2 : List α} {i : Nat}, idxOf? x l = some i →
      idxOf? x (l ++ l2) = some i := by
  intro l
  induction l with
  | nil => intro l2 i h; simp [idxOf?] at h
  | cons v rest ih =>
    intro l2 i h
    by_cases hv : v = x
    · simp [idxOf?, hv] at h ⊢
      exact h
    · simp [idxOf?, hv] at h ⊢
      rcases h with ⟨j, hj, hji⟩
      exact ⟨j, ih hj, hji⟩

theorem idxOf?_append_new {α : Type} [DecidableEq α] {x : α} :
    ∀ {l : List α}, x ∉ l → idxOf? x (l ++ [x]) = some l.length := by
  intro l
  induction l with
  | nil => intro _; simp [idxOf?]
  | cons v rest ih =>
    intro h
    have hv : v ≠ x := fun hvx => h (by simp [hvx])
    have hx : x ∉ rest := fun hx => h (List.mem_cons_of_mem _ hx)
    simp [idxOf?, hv, ih hx]

theorem hasEdge_iff {G : Type} {g : TransformGraph G} {u v : Nat} :
    hasEdge g u v = true ↔ ∃ e ∈ g.edges, e.src = u ∧ e.dst = v := by
  simp [hasEdge, List.any_eq_true]

/-! Properties of the predecessor search. -/

theorem relaxEdge_cases {G : Type} (s : SearchState) (e : GraphEdge G) :
    (¬(e.src ∈ s.visited ∧ e.dst ∉ s.visited) ∧ relaxEdge s e = s) ∨
    (e.src ∈ s.visited ∧ e.dst ∉ s.visited ∧
      relaxEdge s e = ⟨s.visited ++ [e.dst], s.pred ++ [(e.dst, e.src)]⟩) := by
  by_cases h : e.src ∈ s.visited ∧ e.dst ∉ s.visited
  · exact Or.inr ⟨h.1, h.2, by simp [relaxEdge, h]⟩
  · exact Or.inl ⟨h, by simp [relaxEdge, h]⟩

theorem relaxEdge_inv {G : Type} {g : TransformGraph G} {start : Nat}
    {s : SearchState} {e : GraphEdge G} (he : e ∈ g.edges)
    (hv : e.dst < g.vertices.length) (h : SearchInv g start s) :
    SearchInv g start (relaxEdge s e) := by
  rcases relaxEdge_cases s e with ⟨_, heq⟩ | ⟨hsrc, hdst, heq⟩
  · rw [heq]; exact h
  · rw [heq]
    have hedge : hasEdge g e.src e.dst = true := hasEdge_iff.mpr ⟨e, he, rfl, rfl⟩
    have hkey_mem : ∀ p ∈ s.pred, p.1 ∈ s.visited := by
      intro p hp
      rcases h.predRank p hp with ⟨_, _, _, hj, _⟩
      exact idxOf?_mem hj
    refine ⟨?_, ?_, ?_, ?_, ?_, ?_, ?_, ?_, ?_⟩
    · exact List.mem_append_left _ h.startMem
    · intro p hp
      rcases List.mem_append.mp hp with hp | hp
      · exact h.startNoPred p hp
      · have : p = (e.dst, e.src) := by simpa using hp
        subst this
        intro hds
        simp only [] at hds
        exact hdst (by rw [show e.dst = start from hds]; exact h.startMem)
    · intro v hvm hvs
      rcases List.mem_append.mp hvm with hvm | hvm
      · rcases h.visitedKeyed v hvm hvs with ⟨u, hu⟩
        exact ⟨u, List.mem_append_left _ hu⟩
      · have : v = e.dst := by simpa using hvm
        subst this
        exact ⟨e.src, List.mem_append_right _ (by simp)⟩
    · intro p hp
      rcases List.mem_append.mp hp with hp | hp
      · exact h.predEdges p hp
      · have : p = (e.dst, e.src) := by simpa using hp
        subst this
        exact hedge
    · intro p hp
      rcases List.mem_append.mp hp with hp | hp
      · rcases h.predRank p hp with ⟨i, j, hi, hj, hij⟩
        exact ⟨i, j, idxOf?_append_left hi, idxOf?_append_left hj, hij⟩
      · have : p = (e.dst, e.src) := by simpa using hp
        subst this
        rcases mem_idxOf? hsrc with ⟨i, hi⟩
        refine ⟨i, s.visited.length, idxOf?_append_left hi, idxOf?_append_new hdst, ?_⟩
        exact idxOf?_lt_length hi
    · intro p hp q hq hpq
      rcases List.mem_append.mp hp with hp | hp <;>
        rcases List.mem_append.mp hq with hq | hq
      · exact h.keysUnique p hp q hq hpq
      · have hq' : q = (e.dst, e.src) := by simpa using hq
        exact absurd (hkey_mem p hp) (by rw [hpq, hq']; exact hdst)
      · have hp' : p = (e.dst, e.src) := by simpa using hp
        exact absurd (hkey_mem q hq) (by rw [← hpq, hp']; exact hdst)
      · have hp' : p = (e.dst, e.src) := by simpa using hp
        have hq' : q = (e.dst, e.src) := by simpa using hq
        rw [hp', hq']
    · simpa [List.nodup_append] using ⟨h.nodup, hdst⟩
    · intro v hvm
      rcases List.mem_append.mp hvm with hvm | hvm
      · exact h.visitedReach v hvm
      · have : v = e.dst := by simpa using hvm
        subst this
        exact Reach.step (h.visitedReach e.src hsrc) hedge
    · intro v hvm
      rcases List.mem_append.mp hvm with hvm | hvm
      · exact h.visitedLt v hvm
      · have : v = e.dst := by simpa using hvm
        subst this
        exact hv

theorem foldl_relaxEdge_inv {G : Type} {g : TransformGraph G} {start : Nat}
    (hwf : EdgesValid g) :
    ∀ (l : List (GraphEdge G)), (∀ e ∈ l, e ∈ g.edges) → ∀ {s : SearchState},
      SearchInv g start s → SearchInv g start (l.foldl relaxEdge s) := by
  intro l
  induction l with
  | nil => intro _ s h; exact h
  | cons e rest ih =>
    intro hl s h
    have he : e ∈ g.edges := hl e (by simp)
    have hrest : ∀ e ∈ rest, e ∈ g.edges := fun e he => hl e (by simp [he])
    exact ih hrest (relaxEdge_inv he (hwf e he).2 h)

theorem relaxRound_inv {G : Type} {g : TransformGraph G} {start : Nat}
    (hwf : EdgesValid g) {s : SearchState} (h : SearchInv g start s) :
    SearchInv g start (relaxRound g s) :=
  foldl_relaxEdge_inv hwf g.edges (fun _ he => he) h

theorem iterRounds_inv {G : Type} {g : TransformGraph G} {start : Nat}
    (hwf : EdgesValid g) :
    ∀ (m : Nat) {s : SearchState}, SearchInv g start s →
      SearchInv g start (iterRounds g m s) := by
  intro m
  induction m with
  | zero => intro s h; exact h
  | succ n ih => intro s h; exact ih (relaxRound_inv hwf h)

theorem searchInv_init {G : Type} {g : TransformGraph G} {start : Nat}
    (hs : start < g.vertices.length) : SearchInv g start ⟨[start], []⟩ := by
  refine ⟨by simp, by simp, ?_, by simp, by simp, by simp, by simp, ?_, ?_⟩
  · intro v hv hvs
    simp at hv
    exact absurd hv hvs
  · intro v hv
    simp at hv
    subst hv
    exact Reach.refl
  · intro v hv
    simp at hv
    subst hv
    exact hs

theorem searchFrom_inv {G : Type} {g : TransformGraph G} {start : Nat}
    (hwf : EdgesValid g) (hs : start < g.vertices.length) :
    SearchInv g start (searchFrom g start) :=
  iterRounds_inv hwf _ (searchInv_init hs)

theorem searchInv_visited_length_le {G : Type} {g : TransformGraph G}
    {start : Nat} {s : SearchState} (h : SearchInv g start s) :
    s.visited.length ≤ g.vertices.length := by
  have hsub : s.visited ⊆ List.range g.vertices.length := by
    intro v hv
    exact List.mem_range.mpr (h.visitedLt v hv)
  have := (h.nodup.subperm hsub).length_le
  simpa using this

theorem foldl_visited_le {G : Type} :
    ∀ (l : List (GraphEdge G)) (s : SearchState),
      s.visited.length ≤ (l.foldl relaxEdge s).visited.length := by
  intro l
  induction l with
  | nil => intro s; exact Nat.le_refl _
  | cons e rest ih =>
    intro s
    refine Nat.le_trans ?_ (ih (relaxEdge s e))
    rcases relaxEdge_cases s e with ⟨_, heq⟩ | ⟨_, _, heq⟩
    · rw [heq]
    · rw [heq]; simp

theorem foldl_eq_of_length {G : Type} :
    ∀ (l : List (GraphEdge G)) (s : SearchState),
      (l.foldl relaxEdge s).visited.length = s.visited.length →
      l.foldl relaxEdge s = s := by
  intro l
  induction l with
  | nil => intro s _; rfl
  | cons e rest ih =>
    intro s h
    have h1 : (relaxEdge s e).visited.length = s.visited.length := by
      have hle1 := foldl_visited_le rest (relaxEdge s e)
      rcases relaxEdge_cases s e with ⟨_, heq⟩ | ⟨_, _, heq⟩
      · rw [heq]
      · rw [heq] at hle1 ⊢
        simp only [List.foldl_cons] at h
        rw [heq] at h
        simp at hle1
        omega
    have h2 : relaxEdge s e = s := by
      rcases relaxEdge_cases s e with ⟨_, heq⟩ | ⟨_, _, heq⟩
      · exact heq
      · rw [heq] at h1
        simp at h1
    simp only [List.foldl_cons] at h ⊢
    rw [h2] at h ⊢
    exact ih s h

theorem foldl_closed {G : Type} :
    ∀ (l : List (GraphEdge G)) (s : SearchState),
      l.foldl relaxEdge s = s →
      ∀ e ∈ l, e.src ∈ s.visited → e.dst ∈ s.visited := by
  intro l
  induction l with
  | nil => intro s _ e he; simp at he
  | cons e0 rest ih =>
    intro s h e he hsrc
    have hlen : (relaxEdge s e0).visited.length = s.visited.length := by
      have hle1 := foldl_visited_le rest (relaxEdge s e0)
      have hle0 : s.visited.length ≤ (relaxEdge s e0).visited.length := by
        rcases relaxEdge_cases s e0 with ⟨_, heq⟩ | ⟨_, _, heq⟩
        · rw [heq]
        · rw [heq]; simp
      simp only [List.foldl_cons] at h
      rw [h] at hle1
      omega
    have h2 : relaxEdge s e0 = s := by
      rcases relaxEdge_cases s e0 with ⟨_, heq⟩ | ⟨_, _, heq⟩
      · exact heq
      · rw [heq] at hlen
        simp at hlen
    rcases List.mem_cons.mp he with he0 | herest
    · subst he0
      rcases relaxEdge_cases s e with ⟨hcond, _⟩ | ⟨_, _, heq⟩
      · by_contra hdst
        exact hcond ⟨hsrc, hdst⟩
      · rw [heq] at h2
        have h3 := congrArg (fun st => st.visited.length) h2
        simp at h3
    · have hrest : rest.foldl relaxEdge s = s := by
        simp only [List.foldl_cons] at h
        rw [h2] at h
        exact h
      exact ih s hrest e herest hsrc

theorem iterRounds_of_stable {G : Type} {g : TransformGraph G} {s : SearchState}
    (h : relaxRound g s = s) : ∀ m, iterRounds g m s = s := by
  intro m
  induction m with
  | zero => rfl
  | succ n ih => simp only [iterRounds, h]; exact ih

theorem iterRounds_stable_or_grow {G : Type} {g : TransformGraph G} :
    ∀ (m : Nat) (s : SearchState),
      relaxRound g (iterRounds g m s) = iterRounds g m s ∨
      s.visited.length + m ≤ (iterRounds g m s).visited.length := by
  intro m
  induction m with
  | zero => intro s; right; simp [iterRounds]
  | succ n ih =>
    intro s
    by_cases hst : relaxRound g s = s
    · left
      rw [show iterRounds g (n + 1) s = iterRounds g n (relaxRound g s) from rfl,
        hst, iterRounds_of_stable hst n]
      exact hst
    · have hgrow : s.visited.length + 1 ≤ (relaxRound g s).visited.length := by
        have hle := foldl_visited_le g.edges s
        rcases Nat.lt_or_ge s.visited.length (relaxRound g s).visited.length with hlt | hge
        · omega
        · exact absurd (foldl_eq_of_length g.edges s (Nat.le_antisymm hge hle)) hst
      rcases ih (relaxRound g s) with hstab | hlen
      · left
        exact hstab
      · right
        have : iterRounds g (n + 1) s = iterRounds g n (relaxRound g s) := rfl
        rw [this]
        omega

theorem searchFrom_stable {G : Type} {g : TransformGraph G} {start : Nat}
    (hwf : EdgesValid g) (hs : start < g.vertices.length) :
    relaxRound g (searchFrom g start) = searchFrom g start := by
  rcases iterRounds_stable_or_grow (g := g) g.vertices.length ⟨[start], []⟩ with h | h
  · exact h
  · have hle := searchInv_visited_length_le (searchFrom_inv hwf hs)
    simp only [searchFrom] at hle
    simp at h
    omega

theorem searchFrom_closed {G : Type} {g : TransformGraph G} {start : Nat}
    (hwf : EdgesValid g) (hs : start < g.vertices.length) {e : GraphEdge G}
    (he : e ∈ g.edges) (hsrc : e.src ∈ (searchFrom g start).visited) :
    e.dst ∈ (searchFrom g start).visited :=
  foldl_closed g.edges (searchFrom g start) (searchFrom_stable hwf hs) e he hsrc

theorem searchFrom_complete {G : Type} {g : TransformGraph G} {start : Nat}
    (hwf : EdgesValid g) (hs : start < g.vertices.length) {v : Nat}
    (hr : Reach g start v) : v ∈ (searchFrom g start).visited := by
  induction hr with
  | refl => exact (searchFrom_inv hwf hs).startMem
  | step hr he ih =>
    rcases hasEdge_iff.mp he with ⟨e, hem, hsrc, hdst⟩
    have := searchFrom_closed hwf hs hem (by rw [hsrc]; exact ih)
    rw [hdst] at this
    exact this

theorem predOf_eq_self {s : SearchState} {v : Nat}
    (h : ∀ p ∈ s.pred, p.1 ≠ v) : predOf s v = v := by
  unfold predOf
  have hn : s.pred.find? (fun p => p.1 == v) = none := by
    apply List.find?_eq_none.mpr
    intro p hp
    simpa using h p hp
  rw [hn]

theorem predOf_of_mem {s : SearchState} {v u : Nat}
    (huniq : ∀ p ∈ s.pred, ∀ q ∈ s.pred, p.1 = q.1 → p.2 = q.2)
    (h : (v, u) ∈ s.pred) : predOf s v = u := by
  unfold predOf
  cases hf : s.pred.find? (fun p => p.1 == v) with
  | none =>
    have := List.find?_eq_none.mp hf (v, u) h
    simp at this
  | some q =>
    have hq := List.find?_some hf
    simp at hq
    have hqm : q ∈ s.pred := List.mem_of_find?_eq_some hf
    exact huniq q hqm (v, u) h (by simpa using hq)

theorem walkBack_self {G : Type} {g : TransformGraph G} {s : SearchState}
    {v : Nat} (h : predOf s v = v) : ∀ fuel, walkBack g s fuel v = [] := by
  intro fuel
  cases fuel with
  | zero => rfl
  | succ f => simp [walkBack, h]

theorem toPairs_append_last :
    ∀ {vs : List Nat} {u v : Nat}, vs.getLast? = some u →
      toPairs (vs ++ [v]) = toPairs vs ++ [(u, v)] := by
  intro vs
  induction vs with
  | nil => intro u v h; simp at h
  | cons a rest ih =>
    intro u v h
    cases rest with
    | nil =>
      simp at h
      subst h
      rfl
    | cons b rest2 =>
      have hlast : (b :: rest2).getLast? = some u := by
        simpa [List.getLast?_cons_cons] using h
      calc toPairs ((a :: b :: rest2) ++ [v])
          = (a, b) :: toPairs ((b :: rest2) ++ [v]) := rfl
        _ = (a, b) :: (toPairs (b :: rest2) ++ [(u, v)]) := by rw [ih hlast]
        _ = toPairs (a :: b :: rest2) ++ [(u, v)] := rfl

theorem toPairs_map_snd :
    ∀ (rest : List Nat) (a : Nat), (toPairs (a :: rest)).map Prod.snd = rest := by
  intro rest
  induction rest with
  | nil => intro a; rfl
  | cons b rest2 ih =>
    intro a
    show b :: (toPairs (b :: rest2)).map Prod.snd = b :: rest2
    rw [ih b]

theorem pathNames_toPairs {G : Type} (g : TransformGraph G) :
    ∀ {vs : List Nat}, 2 ≤ vs.length →
      pathNames g (toPairs vs) = vs.map (fun v => g.vertices.getD v "") := by
  intro vs h
  match vs with
  | a :: b :: rest =>
    have hsnd : (toPairs (b :: rest)).map (fun p : Nat × Nat => g.vertices.getD p.2 "") =
        rest.map (fun v => g.vertices.getD v "") := by
      rw [show (fun p : Nat × Nat => g.vertices.getD p.2 "") =
        (fun v => g.vertices.getD v "") ∘ Prod.snd from rfl]
      rw [← List.map_map, toPairs_map_snd]
    show pathNames g ((a, b) :: toPairs (b :: rest)) = _
    simp only [pathNames, List.map_cons]
    rw [hsnd]

theorem walkBack_toPairs {G : Type} {g : TransformGraph G} {start : Nat}
    {s : SearchState} (hinv : SearchInv g start s) :
    ∀ j v, idxOf? v s.visited = some j → v ≠ start →
      ∀ fuel, j < fuel →
        ∃ vs : List Nat, walkBack g s fuel v = toPairs vs ∧
          vs.head? = some start ∧ vs.getLast? = some v ∧ 2 ≤ vs.length ∧
          List.Chain' (fun a b => hasEdge g a b = true) vs := by
  intro j
  induction j using Nat.strong_induction_on with
  | _ j ih =>
    intro v hvj hvs fuel hfuel
    have hvm : v ∈ s.visited := idxOf?_mem hvj
    rcases hinv.visitedKeyed v hvm hvs with ⟨u, hu⟩
    have hpred : predOf s v = u := predOf_of_mem hinv.keysUnique hu
    rcases hinv.predRank (v, u) hu with ⟨i, j2, hi, hj2, hij⟩
    rw [hvj] at hj2
    injection hj2 with hj2e
    have hij' : i < j := by omega
    have huv : u ≠ v := by
      intro he
      rw [he, hvj] at hi
      injection hi with hie
      omega
    have hedge : hasEdge g u v = true := hinv.predEdges (v, u) hu
    cases fuel with
    | zero => omega
    | succ f =>
      have hwalk : walkBack g s (f + 1) v = walkBack g s f u ++ [(u, v)] := by
        simp [walkBack, hpred, huv, hedge]
      by_cases hus : u = start
      · subst hus
        have hself : predOf s u = u := predOf_eq_self hinv.startNoPred
        rw [walkBack_self (g := g) hself f] at hwalk
        refine ⟨[u, v], by simpa using hwalk, rfl, by simp, by simp, ?_⟩
        simp [List.chain'_cons, hedge]
      · have hifu : i < f := by omega
        rcases ih i hij' u hi hus f hifu with ⟨vs, hw, hhead, hlast, hlen, hchain⟩
        have hvs_ne : vs ≠ [] := by
          intro hnil
          rw [hnil] at hlen
          simp at hlen
        refine ⟨vs ++ [v], ?_, ?_, ?_, ?_, ?_⟩
        · rw [hwalk, hw, toPairs_append_last hlast]
        · rw [List.head?_append, hhead]
          rfl
        · simp [List.getLast?_concat]
        · simp only [List.length_append, List.length_singleton]
          omega
        · refine List.Chain'.append hchain (by simp) ?_
          intro x hx y hy
          simp at hy
          rw [hlast] at hx
          simp at hx
          rw [← hx, ← hy]
          exact hedge

theorem lookupPath_spec {G : Type} (g : TransformGraph G) (f t : FrameName)
    (hwf : EdgesValid g) (hsz : g.vertices.length ≤ g.edges.length)
    {start goal : Nat}
    (hf : idxOf? f g.vertices = some start) (ht : idxOf? t g.vertices = some goal)
    (hne : f ≠ t) :
    (Reach g start goal →
      ∃ l, g.lookupPath f t = some l ∧ l ≠ [] ∧ l.head? = some f ∧
        l.getLast? = some t ∧ List.Chain' (edgeBetween g) l) ∧
    (¬Reach g start goal → g.lookupPath f t = some []) := by
  have hstart : start < g.vertices.length := idxOf?_lt_length hf
  have hinv := searchFrom_inv hwf hstart
  have hlookup : g.lookupPath f t =
      some (pathNames g (walkBack g (searchFrom g start) g.vertices.length goal)) := by
    unfold TransformGraph.lookupPath
    rw [if_neg (by omega), hf, ht]
  constructor
  · intro hreach
    have hgoal_mem : goal ∈ (searchFrom g start).visited :=
      searchFrom_complete hwf hstart hreach
    have hsg : goal ≠ start := by
      intro he
      have h1 := idxOf?_get? hf
      have h2 := idxOf?_get? ht
      rw [he, h1] at h2
      exact hne (Option.some_injective _ h2.symm).symm
    rcases mem_idxOf? hgoal_mem with ⟨j, hj⟩
    have hjlt : j < g.vertices.length :=
      lt_of_lt_of_le (idxOf?_lt_length hj) (searchInv_visited_length_le hinv)
    rcases walkBack_toPairs hinv j goal hj hsg g.vertices.length hjlt with
      ⟨vs, hw, hhead, hlast, hlen, hchain⟩
    refine ⟨vs.map (fun v => g.vertices.getD v ""), ?_, ?_, ?_, ?_, ?_⟩
    · rw [hlookup, hw, pathNames_toPairs g hlen]
    · intro hnil
      have : vs = [] := by simpa using hnil
      rw [this] at hlen
      simp at hlen
    · rw [List.head?_map, hhead]
      simp only [Option.map_some']
      exact congrArg some (idxOf?_getD hf)
    · rw [List.getLast?_map, hlast]
      simp only [Option.map_some']
      exact congrArg some (idxOf?_getD ht)
    · rw [List.chain'_map]
      refine hchain.imp ?_
      intro a b hab
      rcases hasEdge_iff.mp hab with ⟨e, he, hsrc, hdst⟩
      exact ⟨e, he, by rw [hsrc], by rw [hdst]⟩
  · intro hreach
    have hgoal_nm : goal ∉ (searchFrom g start).visited := by
      intro hm
      exact hreach (hinv.visitedReach goal hm)
    have hnokey : ∀ p ∈ (searchFrom g start).pred, p.1 ≠ goal := by
      intro p hp he
      rcases hinv.predRank p hp with ⟨i, j, _, hj, _⟩
      rw [he] at hj
      exact hgoal_nm (idxOf?_mem hj)
    have hself : predOf (searchFrom g start) goal = goal := predOf_eq_self hnokey
    rw [hlookup, walkBack_self hself]
    rfl

/-! Lemmas about the mutating graph operations. -/

theorem idxOf?_eq_none {α : Type} [DecidableEq α] {x : α} {l : List α}
    (h : x ∉ l) : idxOf? x l = none := by
  cases hi : idxOf? x l with
  | none => rfl
  | some i => exact absurd (idxOf?_mem hi) h

theorem addEntity_edges {G : Type} (g : TransformGraph G) (name : FrameName) :
    (g.addEntity name).edges = g.edges := by
  unfold TransformGraph.addEntity
  split <;> rfl

theorem updateSensorData_eq {G : Type} [Group G] (g : TransformGraph G)
    (f t : FrameName) (d : SensorData G) {u v : Nat}
    (hu : idxOf? f g.vertices = some u) (hv : idxOf? t g.vertices = some v) :
    g.updateSensorData f t d =
      some ⟨g.vertices, (g.removeEdgeByKey d.key).edges ++
        [⟨u, v, 1, EdgeInfo.ofSensorData d⟩,
         ⟨v, u, 1, (EdgeInfo.ofSensorData d).inverse⟩]⟩ := by
  have hu' : idxOf? f (g.removeEdgeByKey d.key).vertices = some u := hu
  have hv' : idxOf? t (g.removeEdgeByKey d.key).vertices = some v := hv
  simp only [TransformGraph.updateSensorData]
  rw [hu', hv']
  rfl

theorem updateSensorData_unknown {G : Type} [Group G] (g : TransformGraph G)
    (f t : FrameName) (d : SensorData G) (h : f ∉ g.vertices ∨ t ∉ g.vertices) :
    g.updateSensorData f t d = none := by
  simp only [TransformGraph.updateSensorData]
  rcases h with h | h
  · have h' : idxOf? f (g.removeEdgeByKey d.key).vertices = none := idxOf?_eq_none h
    rw [h']
  · have h' : idxOf? t (g.removeEdgeByKey d.key).vertices = none := idxOf?_eq_none h
    rw [h']
    cases idxOf? f (g.removeEdgeByKey d.key).vertices <;> rfl

theorem updateSensorData_vertices {G : Type} [Group G] {g g' : TransformGraph G}
    {f t : FrameName} {d : SensorData G}
    (hs : g.updateSensorData f t d = some g') : g'.vertices = g.vertices := by
  simp only [TransformGraph.updateSensorData] at hs
  cases h1 : idxOf? f (g.removeEdgeByKey d.key).vertices with
  | none =>
    rw [h1] at hs
    cases h2 : idxOf? t (g.removeEdgeByKey d.key).vertices <;> rw [h2] at hs <;>
      exact Option.noConfusion hs
  | some u =>
    rw [h1] at hs
    cases h2 : idxOf? t (g.removeEdgeByKey d.key).vertices with
    | none =>
      rw [h2] at hs
      exact Option.noConfusion hs
    | some v =>
      rw [h2] at hs
      injection hs with hs'
      rw [← hs']
      rfl

theorem hasMeasurement_iff {G : Type} [DecidableEq G] (g : TransformGraph G)
    {f t : FrameName} {key : MeasurementKey} {τ : G} {u v : Nat}
    (hu : idxOf? f g.vertices = some u) (hv : idxOf? t g.vertices = some v) :
    g.hasMeasurement f t key τ = true ↔
      ∃ e ∈ g.edges, e.src = u ∧ e.dst = v ∧ e.info = ⟨key, τ⟩ := by
  unfold TransformGraph.hasMeasurement
  rw [hu, hv]
  simp [List.any_eq_true]

theorem removeAllEdges_mem {G : Type} {g g' : TransformGraph G}
    {f t : FrameName} (hs : g.removeAllEdges f t = some g') {e : GraphEdge G}
    (he : e ∈ g'.edges) : e ∈ g.edges := by
  unfold TransformGraph.removeAllEdges at hs
  cases h1 : idxOf? f g.vertices with
  | none =>
    rw [h1] at hs
    cases h2 : idxOf? t g.vertices <;> rw [h2] at hs <;>
      exact Option.noConfusion hs
  | some u =>
    rw [h1] at hs
    cases h2 : idxOf? t g.vertices with
    | none =>
      rw [h2] at hs
      exact Option.noConfusion hs
    | some v =>
      rw [h2] at hs
      injection hs with hs'
      rw [← hs'] at he
      exact (List.mem_filter.mp he).1

theorem removeEdgeByKey_mem {G : Type} {g : TransformGraph G}
    {k : MeasurementKey} {e : GraphEdge G}
    (he : e ∈ (g.removeEdgeByKey k).edges) : e ∈ g.edges := by
  unfold TransformGraph.removeEdgeByKey at he
  exact (List.mem_filter.mp he).1

theorem updateSensorData_mem {G : Type} [Group G] {g g' : TransformGraph G}
    {f t : FrameName} {d : SensorData G}
    (hs : g.updateSensorData f t d = some g') {e : GraphEdge G}
    (he : e ∈ g'.edges) : e ∈ g.edges ∨ e.weight = 1 := by
  simp only [TransformGraph.updateSensorData] at hs
  cases h1 : idxOf? f (g.removeEdgeByKey d.key).vertices with
  | none =>
    rw [h1] at hs
    cases h2 : idxOf? t (g.removeEdgeByKey d.key).vertices <;> rw [h2] at hs <;>
      exact Option.noConfusion hs
  | some u =>
    rw [h1] at hs
    cases h2 : idxOf? t (g.removeEdgeByKey d.key).vertices with
    | none =>
      rw [h2] at hs
      exact Option.noConfusion hs
    | some v =>
      rw [h2] at hs
      injection hs with hs'
      rw [← hs'] at he
      rcases List.mem_append.mp he with he | he
      · exact Or.inl (removeEdgeByKey_mem he)
      · rcases List.mem_cons.mp he with he | he
        · subst he; exact Or.inr rfl
        · rcases List.mem_cons.mp he with he | he
          · subst he; exact Or.inr rfl
          · simp at he

/-! Lemmas about the smoothing filter. -/

namespace ExplonentialMovingAverageFilter

theorem checkReinit_stale {f : ExplonentialMovingAverageFilter} {now : ℚ}
    (h0 : f.timeout ≠ 0) (h : f.timeout ≤ now - f.timeOfLastValue) :
    f.checkReinit now = f.reset := by
  unfold checkReinit
  rw [if_neg h0, if_pos h]

theorem checkReinit_scalarInitd {f : ExplonentialMovingAverageFilter} {now : ℚ}
    (h : f.scalarInitd = false) : (f.checkReinit now).scalarInitd = false := by
  unfold checkReinit reset
  split
  · exact h
  · split
    · rfl
    · exact h

theorem checkReinit_vecInitd {f : ExplonentialMovingAverageFilter} {now : ℚ}
    (h : f.vecInitd = false) : (f.checkReinit now).vecInitd = false := by
  unfold checkReinit reset
  split
  · exact h
  · split
    · rfl
    · exact h

theorem checkReinit_quatInitd {f : ExplonentialMovingAverageFilter} {now : ℚ}
    (h : f.quatInitd = false) : (f.checkReinit now).quatInitd = false := by
  unfold checkReinit reset
  split
  · exact h
  · split
    · rfl
    · exact h

theorem addScalar_of_uninit {f : ExplonentialMovingAverageFilter} {now x : ℚ}
    (h : (f.checkReinit now).scalarInitd = false) :
    (f.addScalar now x).scalar = x ∧ (f.addScalar now x).scalarInitd = true := by
  constructor <;> simp [addScalar, scalar, h]

theorem addVec3_of_uninit {f : ExplonentialMovingAverageFilter} {now : ℚ}
    {v : Vec3} (h : (f.checkReinit now).vecInitd = false) :
    (f.addVec3 now v).vec3 = v ∧ (f.addVec3 now v).vecInitd = true := by
  constructor <;> simp [addVec3, vec3, h]

theorem addQuat_of_uninit {slerp : Quat → Quat → ℚ → Quat}
    {f : ExplonentialMovingAverageFilter} {now : ℚ} {q : Quat}
    (h : (f.checkReinit now).quatInitd = false) :
    (addQuat slerp f now q).quat = q ∧ (addQuat slerp f now q).quatInitd = true := by
  constructor <;> simp [addQuat, quat, h]

end ExplonentialMovingAverageFilter

/-! Claim theorems. -/

/-- C1: the claim states that `lookupTransform(from, to)` returns the product
of the stored edge transforms along the found path, with a `found=false` tag
when no path exists. The source does neither: on the two-frame graph with
measurement `s1 : A → B` the path `[A, B]` is found, yet no transform value
is produced (the success branch of the non-void function falls off its end
without composing anything, lines 118-124); and between connected-component-
disjoint known frames the failure is reported as a bare default-constructed
transform with no `found` tag. -/
theorem claim_C1_lookupTransform_no_composition :
    graphAB.lookupPath "A" "B" = some ["A", "B"] ∧
    graphAB.lookupTransform "A" "B" = none ∧
    graphDisconnected.lookupPath "A" "C" = some [] ∧
    graphDisconnected.lookupTransform "A" "C" = some 1 :=
  ⟨by decide, by decide, by decide, by decide⟩

/-- C2 counterexample: in the direct single-edge case the mirror pair is
stored, but the claim's consequence — composing the transform resolved from
`from` to `to` with the one resolved from `to` to `from` yields the
identity — fails: `lookupTransform` resolves no transform at all in either
direction (its success branch falls off the end of the function, C1), so no
pair of resolved transforms composing to the identity exists. -/
theorem claim_C2_counterexample :
    graphAB.hasMeasurement "A" "B" "s1" tConc = true ∧
    graphAB.lookupTransform "A" "B" = none ∧
    graphAB.lookupTransform "B" "A" = none ∧
    ¬∃ a b : TConc, graphAB.lookupTransform "A" "B" = some a ∧
      graphAB.lookupTransform "B" "A" = some b ∧ a * b = 1 := by
  refine ⟨by decide, by decide, by decide, ?_⟩
  rintro ⟨a, b, ha, _, _⟩
  rw [show graphAB.lookupTransform "A" "B" = none from by decide] at ha
  exact Option.noConfusion ha

/-- C2 (amended): every defined execution of `updateSensorData(from, to, d)`
(both frames registered) returns a graph storing the forward edge
`(from → to, key, T)` and the mirror edge `(to → from, key, T⁻¹)` — the
mirror's stored transform is exactly the group inverse of the forward one.
The claim's further consequence about composing the transforms resolved by
`resolveTransform` does not hold of the code, since resolution produces no
transform (see the counterexample and C1). -/
theorem claim_C2_mirror_edge_inverse {G : Type} [Group G] [DecidableEq G]
    (g : TransformGraph G) (f t : FrameName) (d : SensorData G)
    (hf : f ∈ g.vertices) (ht : t ∈ g.vertices) :
    ∃ g', g.updateSensorData f t d = some g' ∧
      g'.hasMeasurement f t d.key d.transform = true ∧
      g'.hasMeasurement t f d.key d.transform⁻¹ = true := by
  rcases mem_idxOf? hf with ⟨u, hu⟩
  rcases mem_idxOf? ht with ⟨v, hv⟩
  refine ⟨⟨g.vertices, (g.removeEdgeByKey d.key).edges ++
      [⟨u, v, 1, EdgeInfo.ofSensorData d⟩,
       ⟨v, u, 1, (EdgeInfo.ofSensorData d).inverse⟩]⟩,
    updateSensorData_eq g f t d hu hv, ?_, ?_⟩
  · exact (hasMeasurement_iff ⟨g.vertices, (g.removeEdgeByKey d.key).edges ++
        [⟨u, v, 1, EdgeInfo.ofSensorData d⟩,
         ⟨v, u, 1, (EdgeInfo.ofSensorData d).inverse⟩]⟩ hu hv).mpr
      ⟨⟨u, v, 1, EdgeInfo.ofSensorData d⟩,
        List.mem_append_right _ (List.mem_cons_self _ _), rfl, rfl, rfl⟩
  · exact (hasMeasurement_iff ⟨g.vertices, (g.removeEdgeByKey d.key).edges ++
        [⟨u, v, 1, EdgeInfo.ofSensorData d⟩,
         ⟨v, u, 1, (EdgeInfo.ofSensorData d).inverse⟩]⟩ hv hu).mpr
      ⟨⟨v, u, 1, (EdgeInfo.ofSensorData d).inverse⟩,
        List.mem_append_right _ (List.mem_cons_of_mem _ (List.mem_cons_self _ _)),
        rfl, rfl, rfl⟩

theorem claim_C2_witness :
    ("A" ∈ baseAB.vertices ∧ "B" ∈ baseAB.vertices) ∧
    ∃ g', baseAB.updateSensorData "A" "B" ⟨"s1", tConc, 1⟩ = some g' ∧
      g'.hasMeasurement "A" "B" "s1" tConc = true ∧
      g'.hasMeasurement "B" "A" "s1" tConc⁻¹ = true :=
  ⟨⟨by decide, by decide⟩,
    claim_C2_mirror_edge_inverse baseAB "A" "B" ⟨"s1", tConc, 1⟩
      (by decide) (by decide)⟩

/-- C3: a single call to `removeEdgeByKey k` reaches a fixed point: no edge
carrying key `k` remains, in either direction and regardless of endpoints,
and a second call changes nothing. -/
theorem claim_C3_removeEdgeByKey_fixed_point {G : Type} (g : TransformGraph G)
    (k : MeasurementKey) :
    ((g.removeEdgeByKey k).edges.all fun e => e.info.key ≠ k) = true ∧
    (g.removeEdgeByKey k).removeEdgeByKey k = g.removeEdgeByKey k := by
  constructor
  · simp only [TransformGraph.removeEdgeByKey, List.all_eq_true]
    intro e he
    have h2 := (List.mem_filter.mp he).2
    simpa using h2
  · simp [TransformGraph.removeEdgeByKey, List.filter_filter]

/-- C4 counterexample: an operation referencing the unregistered frame "X"
neither reports an `UnknownFrame` error (no error reporting exists in the
source) nor aborts without modifying the graph: the source removes the keyed
edges and then calls boost `add_edge` through the null vertex the unknown
label resolves to — an out-of-bounds access, so the execution is undefined
and has no post-state at all (modelled `none`), rather than the claim's
clean error-abort that leaves the graph unchanged. -/
theorem claim_C4_counterexample :
    ("X" : FrameName) ∉ graphAB.vertices ∧
    graphAB.updateSensorData "X" "B" ⟨"s1", tConc, 1⟩ = none ∧
    ∀ g' : TransformGraph TConc,
      graphAB.updateSensorData "X" "B" ⟨"s1", tConc, 1⟩ ≠ some g' := by
  refine ⟨by decide, by decide, ?_⟩
  intro g' hg
  rw [show graphAB.updateSensorData "X" "B" ⟨"s1", tConc, 1⟩ = none from by decide]
    at hg
  exact Option.noConfusion hg

/-- C4 (amended): no operation checks frame registration or reports an
`UnknownFrame` error. `updateSensorData` referencing an unregistered frame
is not cleanly aborted: after removing the keyed edges it inserts through
the null vertex, which is undefined behavior in the source — there is no
defined result. Vertex auto-creation is indeed absent: every defined
execution of `updateSensorData` leaves the vertex set unchanged. -/
theorem claim_C4_unknown_frame_amended {G : Type} [Group G]
    (g : TransformGraph G) (f t : FrameName) (d : SensorData G) :
    ((f ∉ g.vertices ∨ t ∉ g.vertices) → g.updateSensorData f t d = none) ∧
    (∀ g', g.updateSensorData f t d = some g' → g'.vertices = g.vertices) :=
  ⟨fun h => updateSensorData_unknown g f t d h,
    fun _ hs => updateSensorData_vertices hs⟩

theorem claim_C4_witness :
    (("X" : FrameName) ∉ graphAB.vertices ∨
      ("B" : FrameName) ∉ graphAB.vertices) ∧
    graphAB.updateSensorData "X" "B" ⟨"s1", tConc, 1⟩ = none ∧
    baseAB.updateSensorData "A" "B" ⟨"s1", tConc, 1⟩ = some graphAB ∧
    graphAB.vertices = baseAB.vertices := by
  have h : ("X" : FrameName) ∉ graphAB.vertices ∨
      ("B" : FrameName) ∉ graphAB.vertices := Or.inl (by decide)
  have hsome : baseAB.updateSensorData "A" "B" ⟨"s1", tConc, 1⟩ = some graphAB := by
    decide
  exact ⟨h,
    (claim_C4_unknown_frame_amended graphAB "X" "B" ⟨"s1", tConc, 1⟩).1 h,
    hsome,
    (claim_C4_unknown_frame_amended baseAB "A" "B" ⟨"s1", tConc, 1⟩).2
      graphAB hsome⟩

/-- C5 counterexample: with zero accumulated rotation samples,
`weightedMeanQuat` is not a reported error: it returns a plain quaternion.
The Gram matrix is the 4×4 zero matrix, Eigen yields the identity
eigenvector matrix there, the selection loop picks index 0, and the call
normally returns the quaternion (1, 0, 0, 0) — while the spec's words
demand an empty/error result. -/
theorem claim_C5_counterexample :
    WeightedMean.reset.weightedMeanQuat zeroCaseEigenSolver = ⟨1, 0, 0, 0⟩ ∧
    weightedMeanQuatSpec zeroCaseEigenSolver WeightedMean.reset = none :=
  ⟨by decide, rfl⟩

/-- C5 (amended): `weightedMeanQuat` performs no zero-sample check and its
return type has no failure alternative: with zero accumulated samples the
Gram matrix is zero and the call still returns, for every eigensolver
behavior, the quaternion built from the eigenvector column the selection
loop picks — never the error the spec prescribes. -/
theorem claim_C5_no_zero_sample_check (solver : EigenSolver) (m : WeightedMean)
    (h : m.quats = []) :
    m.quatMatrix = 0 ∧
    m.weightedMeanQuat solver =
      quatOfColumn (solver 0).eigenvectors (selectMaxAbsIndex (solver 0).eigenvalues) ∧
    weightedMeanQuatSpec solver m = none := by
  have hm : m.quatMatrix = 0 := by simp [WeightedMean.quatMatrix, h]
  refine ⟨hm, ?_, ?_⟩
  · simp [WeightedMean.weightedMeanQuat, hm]
  · simp [weightedMeanQuatSpec, h]

theorem claim_C5_witness :
    WeightedMean.reset.quats = [] ∧
    WeightedMean.reset.quatMatrix = 0 ∧
    WeightedMean.reset.weightedMeanQuat zeroCaseEigenSolver =
      quatOfColumn (zeroCaseEigenSolver 0).eigenvectors
        (selectMaxAbsIndex (zeroCaseEigenSolver 0).eigenvalues) ∧
    weightedMeanQuatSpec zeroCaseEigenSolver WeightedMean.reset = none :=
  ⟨rfl, claim_C5_no_zero_sample_check zeroCaseEigenSolver WeightedMean.reset rfl⟩

/-- C6: the first `add` on an uninitialized channel stores the sample
exactly, with α not applied; and when a nonzero timeout has elapsed since
the last value, the next `add` likewise stores the sample exactly (stale
history is discarded, not blended). -/
theorem claim_C6_first_sample (fl : ExplonentialMovingAverageFilter)
    (now x : ℚ) (v : Vec3) (q : Quat) (slerp : Quat → Quat → ℚ → Quat) :
    (fl.scalarInitd = false →
      (fl.addScalar now x).scalar = x ∧ (fl.addScalar now x).scalarInitd = true) ∧
    (fl.vecInitd = false → (fl.addVec3 now v).vec3 = v) ∧
    (fl.quatInitd = false →
      (ExplonentialMovingAverageFilter.addQuat slerp fl now q).quat = q) ∧
    (fl.timeout ≠ 0 → fl.timeout ≤ now - fl.timeOfLastValue →
      (fl.addScalar now x).scalar = x ∧ (fl.addVec3 now v).vec3 = v ∧
      (ExplonentialMovingAverageFilter.addQuat slerp fl now q).quat = q) := by
  refine ⟨fun h => ExplonentialMovingAverageFilter.addScalar_of_uninit
      (ExplonentialMovingAverageFilter.checkReinit_scalarInitd h),
    fun h => (ExplonentialMovingAverageFilter.addVec3_of_uninit
      (ExplonentialMovingAverageFilter.checkReinit_vecInitd h)).1,
    fun h => (ExplonentialMovingAverageFilter.addQuat_of_uninit
      (ExplonentialMovingAverageFilter.checkReinit_quatInitd h)).1, ?_⟩
  intro h0 hst
  have hre := ExplonentialMovingAverageFilter.checkReinit_stale h0 hst
  refine ⟨(ExplonentialMovingAverageFilter.addScalar_of_uninit ?_).1,
    (ExplonentialMovingAverageFilter.addVec3_of_uninit ?_).1,
    (ExplonentialMovingAverageFilter.addQuat_of_uninit ?_).1⟩
  all_goals rw [hre]; rfl

theorem claim_C6_witness :
    (filterHalf.scalarInitd = false ∧ (filterHalf.addScalar 1 5).scalar = 5) ∧
    (filterStale.timeout ≠ 0 ∧
      filterStale.timeout ≤ 20 - filterStale.timeOfLastValue ∧
      (filterStale.addScalar 20 100).scalar = 100) := by
  have h1 : filterHalf.scalarInitd = false := rfl
  have h0 : filterStale.timeout ≠ 0 := by decide
  have hst : filterStale.timeout ≤ 20 - filterStale.timeOfLastValue := by
    norm_num [filterStale]
  refine ⟨⟨h1, ?_⟩, h0, hst, ?_⟩
  · exact ((claim_C6_first_sample filterHalf 1 5 (0, 0, 0) Quat.identity
      (fun a _ _ => a)).1 h1).1
  · exact ((claim_C6_first_sample filterStale 20 100 (0, 0, 0) Quat.identity
      (fun a _ _ => a)).2.2.2 h0 hst).1

/-- C7 counterexample: a connecting path from "A" to "A" exists (A → B → A
through the stored mirror pair), yet `lookupPath` returns the empty list —
the predecessor of the start vertex is itself, so the reconstruction loop
never runs. The claim's "ordered list from `from` to `to` inclusive
whenever a connecting path exists" fails at from = to. -/
theorem claim_C7_counterexample :
    Connected graphAB "A" "A" ∧ graphAB.lookupPath "A" "A" = some [] := by
  have h01 : hasEdge graphAB 0 1 = true := by decide
  have h10 : hasEdge graphAB 1 0 = true := by decide
  constructor
  · exact ⟨0, 0, by decide, by decide, Reach.step (Reach.step Reach.refl h01) h10⟩
  · decide

/-- C7 (amended): for registered, distinct frame names, on a graph whose
edges reference valid vertices and whose edge count is at least its vertex
count (the search's predecessor and distance buffers are sized by edge
count), `lookupPath` returns a non-empty name list beginning with `from`,
ending with `to`, and following stored edges whenever `to` is reachable
from `from`, and the empty list when it is not. When `from = to` it returns
the empty list even though the trivial connecting path exists, and unknown
frame names are not checked (the search runs on an invalid vertex; the
execution is undefined in the source and modelled as no result). -/
theorem claim_C7_findPath_amended {G : Type} (g : TransformGraph G)
    (f t : FrameName) (hwf : EdgesValid g)
    (hsz : g.vertices.length ≤ g.edges.length) (start goal : Nat)
    (hf : idxOf? f g.vertices = some start)
    (ht : idxOf? t g.vertices = some goal) (hne : f ≠ t) :
    (Reach g start goal →
      ∃ l, g.lookupPath f t = some l ∧ l ≠ [] ∧ l.head? = some f ∧
        l.getLast? = some t ∧ List.Chain' (edgeBetween g) l) ∧
    (¬Reach g start goal → g.lookupPath f t = some []) :=
  lookupPath_spec g f t hwf hsz hf ht hne

theorem claim_C7_witness :
    (("A" : FrameName) ≠ "C" ∧ EdgesValid graphABC ∧
      graphABC.vertices.length ≤ graphABC.edges.length ∧ Reach graphABC 0 2 ∧
      ∃ l, graphABC.lookupPath "A" "C" = some l ∧ l ≠ [] ∧ l.head? = some "A" ∧
        l.getLast? = some "C" ∧ List.Chain' (edgeBetween graphABC) l) ∧
    (¬Reach graphDisconnected 0 2 ∧
      graphDisconnected.lookupPath "A" "C" = some []) := by
  have h01 : hasEdge graphABC 0 1 = true := by decide
  have h12 : hasEdge graphABC 1 2 = true := by decide
  have hreach : Reach graphABC 0 2 := Reach.step (Reach.step Reach.refl h01) h12
  have hwfd : EdgesValid graphDisconnected := by unfold EdgesValid; decide
  have hwfc : EdgesValid graphABC := by unfold EdgesValid; decide
  have hnreach : ¬Reach graphDisconnected 0 2 := fun hr =>
    absurd (searchFrom_complete hwfd (by decide) hr) (by decide)
  refine ⟨⟨by decide, hwfc, by decide, hreach, ?_⟩, hnreach, ?_⟩
  · exact (claim_C7_findPath_amended graphABC "A" "C" hwfc (by decide)
      0 2 (by decide) (by decide) (by decide)).1 hreach
  · exact (claim_C7_findPath_amended graphDisconnected "A" "C" hwfd
      (by decide) 0 2 (by decide) (by decide) (by decide)).2 hnreach

/-- C8: `weightedMeanVec3` returns the accumulated weighted sum divided by
the accumulated total weight; after a single `addVec3(v, 1)` it returns `v`
exactly; with zero total weight it returns the zero vector as a defined
degenerate case, not an error. -/
theorem claim_C8_weightedMeanVec3 (m : WeightedMean) (v : Vec3) :
    (m.vectorWeights = 0 → m.weightedMeanVec3 = (0, 0, 0)) ∧
    (m.vectorWeights ≠ 0 → m.weightedMeanVec3 =
      (m.vectorWeightedSum.1 / m.vectorWeights,
       m.vectorWeightedSum.2.1 / m.vectorWeights,
       m.vectorWeightedSum.2.2 / m.vectorWeights)) ∧
    (WeightedMean.reset.addVec3 v 1).weightedMeanVec3 = v := by
  refine ⟨fun h => by simp [WeightedMean.weightedMeanVec3, h],
    fun h => by simp [WeightedMean.weightedMeanVec3, h], ?_⟩
  simp [WeightedMean.reset, WeightedMean.addVec3, WeightedMean.weightedMeanVec3]

theorem claim_C8_witness :
    (WeightedMean.reset.vectorWeights = 0 ∧
      WeightedMean.reset.weightedMeanVec3 = (0, 0, 0)) ∧
    (WeightedMean.reset.addVec3 (1, 2, 3) 1).weightedMeanVec3 = (1, 2, 3) :=
  ⟨⟨rfl, (claim_C8_weightedMeanVec3 WeightedMean.reset (1, 2, 3)).1 rfl⟩,
    (claim_C8_weightedMeanVec3 WeightedMean.reset (1, 2, 3)).2.2⟩

/-- C9 counterexample: reading an accessor after `reset()` does not return
the defined default: `reset` clears only the initialized flags and leaves
the accumulators untouched, so after storing 5 and resetting, `scalar()`
returns 5, not 0, while the channel reports uninitialized. -/
theorem claim_C9_counterexample :
    ((filterHalf.addScalar 1 5).reset).scalar = 5 ∧
    ((filterHalf.addScalar 1 5).reset).scalarInitd = false ∧ (5 : ℚ) ≠ 0 :=
  ⟨by decide, by decide, by decide⟩

/-- C9 (amended): reading any accessor before the channel's first-ever
sample returns the defined defaults — zero scalar, zero vector, identity
rotation (the member initializers live in filters.h, modelled from the
spec) — and is not an error; but after `reset()` the accessors return the
previously accumulated estimates, not the defaults, because `reset` clears
only the initialized flags. -/
theorem claim_C9_accessor_defaults (alpha timeout : ℚ)
    (fl : ExplonentialMovingAverageFilter) :
    ((ExplonentialMovingAverageFilter.init alpha timeout).scalar = 0 ∧
      (ExplonentialMovingAverageFilter.init alpha timeout).vec3 = (0, 0, 0) ∧
      (ExplonentialMovingAverageFilter.init alpha timeout).quat = Quat.identity) ∧
    (fl.reset.scalar = fl.scalar ∧ fl.reset.vec3 = fl.vec3 ∧
      fl.reset.quat = fl.quat) :=
  ⟨⟨rfl, rfl, rfl⟩, rfl, rfl, rfl⟩

/-- C10: every edge ever stored carries the literal weight 1.0 — the weight
field of the supplied measurement is ignored — in every state reachable
through the graph's operations, and consequently the cost the shortest-path
search sums over any edge list of the graph equals its hop count. -/
theorem claim_C10_unit_weights {G : Type} [Group G] (g : TransformGraph G)
    (h : ReachableState g) :
    (∀ e ∈ g.edges, e.weight = 1) ∧
    (∀ es : List (GraphEdge G), (∀ e ∈ es, e ∈ g.edges) →
      pathCost es = (es.length : ℚ)) := by
  have hw : ∀ e ∈ g.edges, e.weight = 1 := by
    induction h with
    | empty => intro e he; simp [TransformGraph.empty] at he
    | addEntity name _ ih =>
      intro e he
      rw [addEntity_edges] at he
      exact ih e he
    | update f t d _ hs ih =>
      intro e he
      rcases updateSensorData_mem hs he with he | he
      · exact ih e he
      · exact he
    | removeAll f t _ hs ih =>
      intro e he
      exact ih e (removeAllEdges_mem hs he)
    | removeKey k _ ih =>
      intro e he
      exact ih e (removeEdgeByKey_mem he)
  refine ⟨hw, ?_⟩
  intro es hes
  induction es with
  | nil => simp [pathCost]
  | cons e rest ih =>
    have h1 : e.weight = 1 := hw e (hes e (by simp))
    have hrest : ∀ x ∈ rest, x ∈ g.edges := fun x hx => hes x (by simp [hx])
    have ih2 := ih hrest
    simp only [pathCost, List.map_cons, List.sum_cons] at ih2 ⊢
    rw [h1, ih2]
    push_cast [List.length_cons]
    ring

theorem claim_C10_witness :
    ReachableState graphAB ∧ (∀ e ∈ graphAB.edges, e.weight = 1) ∧
    pathCost graphAB.edges = (graphAB.edges.length : ℚ) := by
  have hsome : baseAB.updateSensorData "A" "B" ⟨"s1", tConc, 1⟩ = some graphAB := by
    decide
  have hr : ReachableState graphAB :=
    ReachableState.update "A" "B" ⟨"s1", tConc, 1⟩
      (ReachableState.addEntity "B"
        (ReachableState.addEntity "A" ReachableState.empty)) hsome
  have h := claim_C10_unit_weights graphAB hr
  exact ⟨hr, h.1, h.2 graphAB.edges (fun _ he => he)⟩

end Atlas
